import Mathlib

/-!
# A shallow embedding of the vl-docling ingestion-and-retrieval pipeline

This file embeds, in Lean 4, the algorithmic core of the vl-docling
repository and settles the specification claims against it:

* `src/document_processor.py` — the boundary splitter
  (`_split_text_characters`, `_split_text_tokens`), chunk materialisation
  (`chunk_document`), and per-file error isolation of `load_directory`;
* `src/vector_store.py` — the FAISS-backed `VectorStore`
  (`add_chunks` with content-hash dedup, `search`, `get_stats`);
* `src/milvus_store.py` — the Milvus-backed `MilvusStore`
  (`add_chunks`, `search`, `save`/`load`, `get_stats`);
* `src/rag_engine.py` — `RAGEngine.retrieve` (retrieve-then-rerank with
  fallback) together with `src/reranker_client.py`
  (`StandardRerankerClient.rerank`).

Modelling conventions:

* Python text is `List Char`; slices, `str.rfind`, `str.strip` and string
  truthiness are embedded explicitly with Python semantics (negative slice
  indices count from the end, `rfind` returns `-1` when absent, `strip`
  removes ASCII whitespace).
* Embedding vectors are `List ℤ` (exact arithmetic; floating point is not
  modelled) and similarity scores are `ℚ`; the embedding collaborator is
  an arbitrary function `String → List ℤ` (the code requires the
  collaborator to return one vector per input text, in input order, and
  the batched paths concatenate the batches back in order, so a whole
  batch equals `List.map` of that function).
* FAISS (`IndexIDMap(IndexFlatL2)`) is embedded as exact squared-L2
  nearest-neighbour search over the stored `(id, vector)` pairs, distances
  ascending, ties broken by insertion order (a stable sort), padded with
  sentinel id `-1` entries when fewer than `top_k` vectors exist.
* Unbounded `while` loops carry a fuel argument; `none` means the loop is
  still running after `fuel` iterations, so `∀ fuel, … = none` states
  non-termination.
* `sha256` digests and the tokenizer are collaborator functions passed as
  parameters.
-/

namespace VLDocling

/-! ## Python string primitives -/

/-- Python truthiness of an optional string: `None` and `""` are falsy
(`if chunk_hash:` in `vector_store.py`). -/
def strTruthy : Option String → Option String
  | some s => if s = "" then none else some s
  | none => none

/-- The characters Python's `str.strip()` removes (ASCII whitespace). -/
def isPySpace (c : Char) : Bool :=
  c == ' ' || c == '\t' || c == '\n' || c == '\r' || c == '\x0b' || c == '\x0c'

/-- Python `str.strip()` on a list of characters. -/
def pyStrip (s : List Char) : List Char :=
  ((s.dropWhile isPySpace).reverse.dropWhile isPySpace).reverse

/-- Python slice `s[a:b]`: negative indices count from the end,
out-of-range indices clamp. -/
def pySlice {α : Type} (s : List α) (a b : Int) : List α :=
  let n : Int := s.length
  let lo := if a < 0 then max (n + a) 0 else min a n
  let hi := if b < 0 then max (n + b) 0 else min b n
  if lo < hi then (s.drop lo.toNat).take (hi - lo).toNat else []

/-- Python `s.rfind(c, lo)` for a one-character pattern: the largest
`i ≥ lo` with `s[i] = c`, and `-1` when there is none. -/
def rfind1From (c : Char) (s : List Char) (lo : Nat) : Int :=
  (List.range s.length).foldl
    (fun best i => if lo ≤ i && s.getD i ' ' == c then (i : Int) else best) (-1)

/-- Python `s.rfind(ab, lo)` for a two-character pattern: the largest
`i ≥ lo` with `s[i] = a` and `s[i+1] = b`, and `-1` when there is none. -/
def rfind2From (a b : Char) (s : List Char) (lo : Nat) : Int :=
  (List.range s.length).foldl
    (fun best i =>
      if lo ≤ i && i + 1 < s.length && s.getD i ' ' == a && s.getD (i + 1) ' ' == b then
        (i : Int)
      else best) (-1)

/-- `last_sentence`: the maximum of the six sentence-delimiter `rfind`s
(`. `, `? `, `! ` and their newline variants), searching from `lo`. -/
def lastSentence (chunk : List Char) (lo : Nat) : Int :=
  max (rfind2From '.' ' ' chunk lo)
    (max (rfind2From '?' ' ' chunk lo)
      (max (rfind2From '!' ' ' chunk lo)
        (max (rfind2From '.' '\n' chunk lo)
          (max (rfind2From '?' '\n' chunk lo) (rfind2From '!' '\n' chunk lo)))))

/-! ## `DocumentProcessor._split_text_characters`

One iteration of the `while start < len(text)` loop of
`_split_text_characters` (document_processor.py lines 839-879): it returns
the chunk the iteration appends (if any) and the next value of `start`.
`respect` is `self.respect_sentence_boundary`, `minCS` is
`self.min_chunk_size` (config default 50), `cs`/`co` are
`chunk_size`/`chunk_overlap`. -/

/-- The windowing-and-truncation part of one iteration (lines 843-866):
the chunk text after boundary truncation, and the final `end`. -/
def charWindow (respect : Bool) (cs : Nat) (text : List Char) (start : Int) :
    List Char × Int :=
  let end0 : Int := start + cs
  let chunk0 := pySlice text start end0
  if end0 < (text.length : Int) ∧ respect = true then
    let ls := lastSentence chunk0 0
    if ls > ((cs / 2 : Nat) : Int) then
      (pySlice chunk0 0 (ls + 1), start + ls + 1)
    else if chunk0.contains ' ' then
      let lsp := rfind1From ' ' chunk0 0
      if lsp > ((cs / 2 : Nat) : Int) then (pySlice chunk0 0 lsp, start + lsp)
      else (chunk0, end0)
    else (chunk0, end0)
  else (chunk0, end0)

def charIter (respect : Bool) (minCS cs co : Nat) (text : List Char) (start : Int) :
    Option (List Char) × Int :=
  let step := charWindow respect cs text start
  let stripped := pyStrip step.1
  let emit := if stripped ≠ [] ∧ minCS ≤ stripped.length then some stripped else none
  let start1 : Int := step.2 - co
  (emit, if start1 ≤ step.2 - cs then step.2 else start1)

/-- The `while` loop of `_split_text_characters`, fuelled: `none` means the
loop has not finished within `fuel` iterations. -/
def splitCharsAux (respect : Bool) (minCS cs co : Nat) (text : List Char) :
    Nat → Int → List (List Char) → Option (List (List Char))
  | 0, _, _ => none
  | fuel + 1, start, acc =>
    if start < (text.length : Int) then
      let p := charIter respect minCS cs co text start
      splitCharsAux respect minCS cs co text fuel p.2
        (match p.1 with
         | some c => acc ++ [c]
         | none => acc)
    else some acc

/-- `DocumentProcessor._split_text_characters(text, chunk_size, chunk_overlap)`. -/
def splitTextCharacters (respect : Bool) (minCS cs co : Nat) (fuel : Nat)
    (text : List Char) : Option (List (List Char)) :=
  splitCharsAux respect minCS cs co text fuel 0 []

/-! ## `DocumentProcessor._split_text_tokens`

The tokenizer collaborator (tiktoken) is abstracted as the pair
`encode : List Char → List Nat`, `decode : List Nat → List Char`.
`start_idx` is an `Int` because the Python loop can drive it negative
(`start_idx = end_idx - overlap_tokens` after a truncation), at which point
Python slicing wraps from the end; `pySlice` reproduces that. -/

/-- The `while` loop of `_split_text_tokens` (document_processor.py lines
772-824), fuelled. -/
def splitTokensAux (encode : List Char → List Nat) (decode : List Nat → List Char)
    (respect : Bool) (minCS cs co : Nat) (tokens : List Nat) :
    Nat → Int → List (List Char) → Option (List (List Char))
  | 0, _, _ => none
  | fuel + 1, startIdx, acc =>
    if startIdx < (tokens.length : Int) then
      let endIdx : Int := min (startIdx + cs) tokens.length
      let chunkTokens := pySlice tokens startIdx endIdx
      let chunkText := decode chunkTokens
      let step :=
        if endIdx < (tokens.length : Int) ∧ respect = true then
          let searchStart := chunkText.length - cs / 4
          let ls := lastSentence chunkText searchStart
          if ls > ((chunkText.length / 2 : Nat) : Int) then
            let truncated := pySlice chunkText 0 (ls + 1)
            let tt := encode truncated
            if cs / 2 ≤ tt.length then (truncated, startIdx + tt.length)
            else (chunkText, endIdx)
          else if (chunkText.drop searchStart).contains ' ' then
            let lsp := rfind1From ' ' chunkText searchStart
            if lsp > ((chunkText.length / 2 : Nat) : Int) then
              let truncated := pySlice chunkText 0 lsp
              let tt := encode truncated
              if cs / 2 ≤ tt.length then (truncated, startIdx + tt.length)
              else (chunkText, endIdx)
            else (chunkText, endIdx)
          else (chunkText, endIdx)
        else (chunkText, endIdx)
      let stripped := pyStrip step.1
      let acc1 :=
        if stripped ≠ [] ∧ minCS ≤ (encode stripped).length then acc ++ [stripped] else acc
      if (tokens.length : Int) ≤ step.2 then some acc1
      else
        let overlapTokens : Int := min (co : Int) chunkTokens.length
        let startIdx1 := step.2 - overlapTokens
        splitTokensAux encode decode respect minCS cs co tokens fuel
          (if startIdx1 ≥ step.2 then step.2 else startIdx1) acc1
    else some acc

/-- `DocumentProcessor._split_text_tokens(text, chunk_size, chunk_overlap)`
(document_processor.py lines 748-825): blank input returns `[]`; input of
at most `chunk_size` tokens returns the single untrimmed `text`; otherwise
the windowed loop runs. -/
def splitTextTokens (encode : List Char → List Nat) (decode : List Nat → List Char)
    (respect : Bool) (minCS cs co : Nat) (fuel : Nat) (text : List Char) :
    Option (List (List Char)) :=
  if pyStrip text = [] then some []
  else
    let tokens := encode text
    if tokens.length ≤ cs then some (if pyStrip text ≠ [] then [text] else [])
    else splitTokensAux encode decode respect minCS cs co tokens fuel 0 []

/-! ## Data model: chunk metadata, chunks, documents

`metadata` is a Python dict; the embedding records the keys the core
reads or writes. Unmodelled source-specific extras do not influence any
claim. A `none` field is an absent key (`metadata.get(k)` returns `None`). -/

structure Meta where
  contentHash : Option String := none
  chunkContentHash : Option String := none
  source : Option String := none
  embeddingModelVersion : Option String := none
  contentType : Option String := none
  chunkIndex : Option Nat := none
  totalChunks : Option Nat := none
  chunkSizeUsed : Option Nat := none
  chunkOverlapUsed : Option Nat := none
  chunkingMode : Option String := none
deriving DecidableEq

/-- `DocumentChunk` (document_processor.py lines 226-243): `chunk_id` is
`None` until a store assigns it. -/
structure Chunk where
  content : String
  meta : Meta := {}
  chunkId : Option Nat := none
deriving DecidableEq

/-- `Document` as the loaders construct it (content plus metadata; the
sha256 `content_hash` and the ingestion timestamp are stamped into the
metadata by the constructor). -/
structure PyDocument where
  content : String
  meta : Meta := {}
deriving DecidableEq

/-- The chunk-materialisation loop of `DocumentProcessor.chunk_document`
(document_processor.py lines 901-919), taking the split text chunks as
input: each produced `DocumentChunk` copies the document metadata, stamps
lineage fields and a per-chunk sha256 (`hash` is the digest collaborator),
and leaves `chunk_id = None`. -/
def mkDocumentChunks (hash : String → String) (docMeta : Meta) (cs co : Nat)
    (useTokens : Bool) (textChunks : List String) : List Chunk :=
  textChunks.enum.map fun p =>
    { content := p.2
      meta := { docMeta with
        chunkIndex := some p.1
        totalChunks := some textChunks.length
        chunkSizeUsed := some cs
        chunkOverlapUsed := some co
        chunkingMode := some (if useTokens then "tokens" else "characters")
        chunkContentHash := some (hash p.2) }
      chunkId := none }

/-! ## FAISS-backed `VectorStore` (vector_store.py)

The embedding collaborator is `embed : String → List ℚ`
(`get_embeddings([t1, …, tn]) = [embed t1, …, embed tn]`; the async and
sync batch paths both concatenate batch results back in input order, so
`np.vstack(all_embeddings)` is `newChunks.map (embed ·.content)`).
`index` is the `IndexIDMap(IndexFlatL2)`: the list of `(id, vector)`
pairs in insertion order, `none` before first initialisation. -/

abbrev Vec := List ℤ

structure FaissStore where
  chunks : List Chunk
  index : Option (List (Nat × Vec))
  dimension : Option Nat
deriving DecidableEq

def emptyFaiss : FaissStore := ⟨[], none, none⟩

/-- The per-chunk duplicate test of `VectorStore.add_chunks`
(vector_store.py lines 73-102): the chunk-level hash when truthy, else the
document-level hash when truthy, each compared against all chunks already
stored; a chunk with neither hash is never a duplicate. -/
def isDupAgainst (stored : List Chunk) (c : Chunk) : Bool :=
  match strTruthy c.meta.chunkContentHash with
  | some h => stored.any fun e => e.meta.chunkContentHash == some h
  | none =>
    match strTruthy c.meta.contentHash with
    | some h => stored.any fun e => e.meta.contentHash == some h
    | none => false

/-- `chunk.metadata['embedding_model_version'] = embedding_model_version`
(vector_store.py line 71), applied to every incoming chunk. -/
def stampVer (ver : String) (c : Chunk) : Chunk :=
  { c with meta := { c.meta with embeddingModelVersion := some ver } }

/-- The incoming chunks that survive the duplicate scan (`new_chunks`). -/
def newChunksOf (ver : String) (stored : List Chunk) (chunks : List Chunk) :
    List Chunk :=
  (chunks.map (stampVer ver)).filter fun c => !isDupAgainst stored c

/-- `chunk.chunk_id = start_id + i` for the i-th chunk of a batch. -/
def assignIds (startId : Nat) (l : List Chunk) : List Chunk :=
  l.enum.map fun p => { p.2 with chunkId := some (startId + p.1) }

/-- `VectorStore.add_chunks(chunks)` (vector_store.py lines 47-173),
returning the new store and the reported `duplicate_count`. Every incoming
chunk is stamped with the embedding model version; non-duplicates are
embedded, the index is initialised on first use with the embedding width,
ids `current_count + i` are assigned, and chunks plus vectors appended. -/
def addChunksFull (embed : String → Vec) (ver : String) (s : FaissStore)
    (chunks : List Chunk) : FaissStore × Nat :=
  if chunks.isEmpty then (s, 0)
  else
    let newChunks := newChunksOf ver s.chunks chunks
    let dupCount := (chunks.map (stampVer ver)).countP fun c => isDupAgainst s.chunks c
    if newChunks.isEmpty then (s, dupCount)
    else
      let assigned := assignIds s.chunks.length newChunks
      ({ chunks := s.chunks ++ assigned
         index := some ((s.index.getD []) ++
           assigned.map fun c => (c.chunkId.getD 0, embed c.content))
         dimension := some (s.dimension.getD
           ((newChunks.map fun c => embed c.content).headD []).length) },
       dupCount)

def addChunks (embed : String → Vec) (ver : String) (s : FaissStore)
    (chunks : List Chunk) : FaissStore :=
  (addChunksFull embed ver s chunks).1

/-- A store populated from empty by a sequence of `add_chunks` calls. -/
def buildStore (embed : String → Vec) (ver : String) (batches : List (List Chunk)) :
    FaissStore :=
  batches.foldl (addChunks embed ver) emptyFaiss

/-- Squared L2 distance, the metric `faiss.IndexFlatL2` reports. -/
def sqL2 (u v : Vec) : ℤ := ((u.zip v).map fun p => (p.1 - p.2) * (p.1 - p.2)).sum

/-- Ordering of search hits: by distance, ascending; sorting with a
stable sort breaks ties by insertion order, as FAISS's flat scan does. -/
def byDist (a b : Int × Int) : Prop := a.1 ≤ b.1

instance : DecidableRel byDist := fun a b => inferInstanceAs (Decidable (a.1 ≤ b.1))

instance : IsTotal (Int × Int) byDist := ⟨fun a b => le_total a.1 b.1⟩

instance : IsTrans (Int × Int) byDist := ⟨fun _ _ _ h1 h2 => le_trans h1 h2⟩

/-- `self.index.search(query_embedding, top_k)` on
`IndexIDMap(IndexFlatL2)`: exact nearest-neighbour search, the `top_k`
pairs `(distance, id)` with smallest distance, ascending, ties broken by
insertion order (a stable sort); when fewer than `top_k` vectors exist the
tail is padded with sentinel id `-1` entries (their distance slot is never
read by the caller, which filters on the id). -/
def faissRawSearch (idx : List (Nat × Vec)) (q : Vec) (topK : Nat) :
    List (Int × Int) :=
  let hits := (List.insertionSort byDist (idx.map fun e => (sqL2 q e.2, (e.1 : Int)))).take topK
  hits ++ List.replicate (topK - hits.length) (0, -1)

/-- The body of the result loop of `VectorStore.search` (vector_store.py
lines 196-202): a raw `(distance, idx)` pair contributes
`(chunks[idx], 1 / (1 + distance))` when `0 ≤ idx < len(chunks)` and is
skipped otherwise (sentinel ids). -/
def searchHit (s : FaissStore) (p : Int × Int) : Option (Chunk × ℚ) :=
  if 0 ≤ p.2 ∧ p.2 < (s.chunks.length : Int) then
    (s.chunks.get? p.2.toNat).map fun c => (c, 1 / (1 + (p.1 : ℚ)))
  else none

/-- `VectorStore.search(query, top_k)` (vector_store.py lines 175-204):
empty when the index is uninitialised or no chunks are stored; otherwise
each returned `(distance, idx)` with `0 ≤ idx < len(chunks)` becomes
`(chunks[idx], 1 / (1 + distance))`. -/
def vsSearch (embed : String → Vec) (s : FaissStore) (q : String) (topK : Nat) :
    List (Chunk × ℚ) :=
  match s.index with
  | none => []
  | some idx =>
    if s.chunks.isEmpty then []
    else (faissRawSearch idx (embed q) topK).filterMap (searchHit s)

structure StoreStats where
  numChunks : Nat
  dimension : Option Nat
  indexSize : Nat
  sources : Finset String
deriving DecidableEq

/-- `VectorStore.get_stats()` (vector_store.py lines 276-288); `sources`
is `list(set(...))`, i.e. a set (Python's ordering of it is arbitrary). -/
def faissGetStats (s : FaissStore) : StoreStats :=
  { numChunks := s.chunks.length
    dimension := s.dimension
    indexSize := (s.index.getD []).length
    sources := (s.chunks.map fun c => c.meta.source.getD "unknown").toFinset }

/-- `VectorStore.save()` (vector_store.py lines 206-235): the persisted
snapshot — the serialised FAISS index plus `{dimension, num_chunks,
chunks:[{chunk_id, content, metadata}]}`. -/
structure FaissSnapshot where
  index : Option (List (Nat × Vec))
  dimension : Option Nat
  chunkRecords : List (Option Nat × String × Meta)
deriving DecidableEq

def faissSave (s : FaissStore) : Option FaissSnapshot :=
  match s.index with
  | none => none
  | some idx =>
    some { index := some idx
           dimension := s.dimension
           chunkRecords := s.chunks.map fun c => (c.chunkId, c.content, c.meta) }

/-- `VectorStore.load()` (vector_store.py lines 237-267) into an instance:
reads the index back and reconstructs each `DocumentChunk` from its
record. -/
def faissLoad (snap : FaissSnapshot) : FaissStore :=
  { index := snap.index
    dimension := snap.dimension
    chunks := snap.chunkRecords.map fun r =>
      { content := r.2.1, meta := r.2.2, chunkId := r.1 } }

/-! ## Milvus-backed `MilvusStore` (milvus_store.py)

The Milvus server is the persistence collaborator: its state is the
collection of inserted entities (`none` when the collection does not
exist). An instance holds a local `chunks` list, a `dimension`, and its
`self.collection` handle (`hasCollection`). The server-side ANN search
(IVF_FLAT, metric L2 from config) is modelled as exact squared-L2 top-k,
the same contract `faissRawSearch` models. -/

structure MilvusEntity where
  chunkId : Nat
  embedding : Vec
  content : String
  meta : Meta
deriving DecidableEq

structure MilvusServer where
  collection : Option (List MilvusEntity)
deriving DecidableEq

structure MilvusInstance where
  chunks : List Chunk
  dimension : Option Nat
  hasCollection : Bool
deriving DecidableEq

def milvusFresh : MilvusInstance := ⟨[], none, false⟩

/-- `MilvusStore.add_chunks(chunks)` (milvus_store.py lines 147-218): no
duplicate check of any kind; the collection is created or attached on
first use; every incoming chunk gets id `current_count + i`, is inserted
into the collection and appended to the local chunk list. -/
def milvusAddChunks (embed : String → Vec) (srv : MilvusServer)
    (inst : MilvusInstance) (chunks : List Chunk) : MilvusServer × MilvusInstance :=
  if chunks.isEmpty then (srv, inst)
  else
    let embeddings := chunks.map fun c => embed c.content
    let dim := (embeddings.headD []).length
    let srv1 : MilvusServer :=
      if inst.hasCollection then srv
      else match srv.collection with
        | none => ⟨some []⟩
        | some l => ⟨some l⟩
    let inst1 : MilvusInstance :=
      if inst.hasCollection then inst
      else { inst with dimension := some dim, hasCollection := true }
    let assigned := assignIds inst1.chunks.length chunks
    let entities := assigned.map fun c =>
      MilvusEntity.mk (c.chunkId.getD 0) (embed c.content) c.content c.meta
    (⟨some ((srv1.collection.getD []) ++ entities)⟩,
     { inst1 with chunks := inst1.chunks ++ assigned })

/-- A Milvus system (server plus one instance) populated from scratch by a
sequence of `add_chunks` calls. -/
def buildMilvus (embed : String → Vec) (batches : List (List Chunk)) :
    MilvusServer × MilvusInstance :=
  batches.foldl (fun p l => milvusAddChunks embed p.1 p.2 l) (⟨none⟩, milvusFresh)

/-- `MilvusStore.save()` (milvus_store.py lines 274-279): prints only —
Milvus data is already persisted on the server; nothing else happens. -/
def milvusSave (srv : MilvusServer) (inst : MilvusInstance) :
    MilvusServer × MilvusInstance := (srv, inst)

/-- `MilvusStore.load()` (milvus_store.py lines 281-309): attaches the
collection handle when the collection exists and returns `True`; the local
chunks list is NOT rebuilt (the code notes it "needs to be fetched on
demand"). -/
def milvusLoad (srv : MilvusServer) (inst : MilvusInstance) :
    MilvusInstance × Bool :=
  match srv.collection with
  | some _ => ({ inst with hasCollection := true }, true)
  | none => (inst, false)

/-- `MilvusStore.search(query, top_k)` (milvus_store.py lines 220-272):
empty when no collection handle or no local chunks; otherwise the server's
top-k hits are mapped back through a linear scan of the local chunk list
by `chunk_id` (misses skipped) with score `1 / (1 + distance)`. -/
def milvusSearch (embed : String → Vec) (srv : MilvusServer)
    (inst : MilvusInstance) (q : String) (topK : Nat) : List (Chunk × ℚ) :=
  if inst.hasCollection = false ∨ inst.chunks.isEmpty then []
  else
    let ents := srv.collection.getD []
    let hits := (List.insertionSort (fun a b : Int × Nat => a.1 ≤ b.1)
        (ents.map fun e => (sqL2 (embed q) e.embedding, e.chunkId))).take topK
    hits.filterMap fun p =>
      (inst.chunks.find? fun c => c.chunkId == some p.2).map fun c =>
        (c, 1 / (1 + (p.1 : ℚ)))

/-- `MilvusStore.get_stats()` (milvus_store.py lines 325-343), restricted
to the backend-independent fields (`store_type`, host, port, collection
name are constants of the connection). -/
def milvusGetStats (srv : MilvusServer) (inst : MilvusInstance) : StoreStats :=
  { numChunks := inst.chunks.length
    dimension := inst.dimension
    indexSize := if inst.hasCollection then (srv.collection.getD []).length else 0
    sources := (inst.chunks.map fun c => c.meta.source.getD "unknown").toFinset }

/-! ## `StandardRerankerClient.rerank` (reranker_client.py)

The HTTP transport is the collaborator: `transport attempt` is what the
`requests.post` of the given attempt produces — a timeout, a transport
error, or a parsed JSON body in the documented `{"results": [{"index",
"relevance_score"}, …]}` shape (§6 of the spec fixes this response
surface). An `index` out of range makes `documents[idx]` raise, and that
exception is not caught by the retry handler, so it propagates to the
caller (`Except.error`). -/

inductive TransportResult where
  | timeout
  | reqError
  | ok (results : List (Nat × Option ℚ))
deriving DecidableEq

/-- `StandardRerankerClient._fallback_response(documents)`
(reranker_client.py lines 177-186): every document, original order,
`relevance_score = None`. -/
def fallbackResponse (documents : List String) : List (Nat × Option ℚ) :=
  documents.enum.map fun p => (p.1, none)

/-- The `for attempt in range(max_retries)` retry loop of `rerank`
(reranker_client.py lines 132-175): `remaining` counts the iterations the
`range` still yields; falling out of the loop returns the fallback
response (line 175), as does exhausting the retry budget inside the loop
(lines 159-173). -/
def clientRerankGo (transport : Nat → TransportResult) (maxRetries : Nat)
    (documents : List String) : Nat → Nat → Except Unit (List (Nat × Option ℚ))
  | _, 0 => .ok (fallbackResponse documents)
  | attempt, remaining + 1 =>
    match transport attempt with
    | .ok results =>
      if results.all fun p => p.1 < documents.length then .ok results
      else .error ()
    | .timeout =>
      if attempt < maxRetries - 1 then
        clientRerankGo transport maxRetries documents (attempt + 1) remaining
      else .ok (fallbackResponse documents)
    | .reqError =>
      if attempt < maxRetries - 1 then
        clientRerankGo transport maxRetries documents (attempt + 1) remaining
      else .ok (fallbackResponse documents)

/-- `StandardRerankerClient.rerank(query, documents, top_k)`
(reranker_client.py lines 90-175). When the client's `enabled` flag is
off it returns all documents unscored; otherwise the retry loop runs.
The query and `top_n` are sent to the server and only influence the
transport's response, which the `transport` function already fixes. -/
def clientRerank (enabled : Bool) (maxRetries : Nat)
    (transport : Nat → TransportResult) (documents : List String) :
    Except Unit (List (Nat × Option ℚ)) :=
  if enabled then clientRerankGo transport maxRetries documents 0 maxRetries
  else .ok (documents.enum.map fun p => (p.1, none))

/-! ## `RAGEngine.retrieve` (rag_engine.py lines 128-221) -/

/-- One entry of the list `retrieve` returns. Keys absent from the Python
dict are `none`; `rerankScore` is doubly optional because the key can be
absent or present with value `None`. -/
structure RetrievedDoc where
  content : String
  score : ℚ
  chunkId : Option Nat
  originalRank : Option Nat
  rerankScore : Option (Option ℚ)
  newRank : Option Nat
deriving DecidableEq

instance : Inhabited RetrievedDoc := ⟨⟨"", 0, none, none, none, none⟩⟩

/-- `Python: k = top_k or self.top_k` — `None` and `0` fall back to the
engine default. -/
def pyOrNat : Option Nat → Nat → Nat
  | some 0, d => d
  | none, d => d
  | some n, _ => n

def mkPlainDoc (p : Chunk × ℚ) : RetrievedDoc :=
  ⟨p.1.content, p.2, p.1.chunkId, none, none, none⟩

def mkInitialDoc (ip : Nat × (Chunk × ℚ)) : RetrievedDoc :=
  ⟨ip.2.1.content, ip.2.2, ip.2.1.chunkId, some (ip.1 + 1), none, none⟩

/-- `RAGEngine.retrieve(query, top_k)` with the vector search and the
rerank call injected. With reranking enabled: over-fetch
`max(rerank_top_k, k)` candidates; on a raising rerank call fall back to
the first `k` candidates; on success map each returned `index` back to
its candidate, attaching `rerank_score` and `new_rank`. The merge loop
mutates the candidate dict in place, so when the collaborator repeats an
index both occurrences alias one dict and show the fields of the last
assignment; an out-of-range index raises inside the `try` and falls back.
(The model checks the bounds up front; Python would additionally keep
mutations the merge made before such a raise, a difference observable
only on a malformed collaborator response with a late bad index.) -/
def retrieve (rerankerEnabled : Bool) (search : String → Nat → List (Chunk × ℚ))
    (rerankCall : List String → Nat → Except Unit (List (Nat × Option ℚ)))
    (rerankTopK defaultTopK : Nat) (topK : Option Nat) (q : String) :
    List RetrievedDoc :=
  let k := pyOrNat topK defaultTopK
  if rerankerEnabled then
    let results := search q (max rerankTopK k)
    let initial := results.enum.map mkInitialDoc
    let documents := results.map fun p => p.1.content
    match rerankCall documents k with
    | .error _ => initial.take k
    | .ok reranked =>
      if reranked.all fun p => p.1 < initial.length then
        reranked.enum.map fun jp =>
          let lastFor := (reranked.enum.filter fun e => e.2.1 == jp.2.1).getLastD jp
          { initial.getD jp.2.1 default with
              rerankScore := some lastFor.2.2
              newRank := some (lastFor.1 + 1) }
      else initial.take k
  else
    (search q k).map mkPlainDoc

/-! ## `load_directory` per-file error isolation (document_processor.py)

`loader` abstracts one file's extraction plus `Document` construction
(`load_text_file` / `_process_single_file`'s per-type bodies); `relp` is
`os.path.relpath(file_path, directory_path)`. The sequential path of
`load_directory` (lines 711-721), the thread path (lines 690-709) and the
process path (lines 662-678) all collect the same per-file outcome
triples; the parallel paths do so in completion order, i.e. over some
permutation of `files`, which the theorems quantify over by taking `files`
arbitrary. -/

/-- `DocumentProcessor._load_file_safe` (lines 560-570) /
`_process_single_file` (lines 46-184): one file's outcome triple,
`(document, relative_path, error)`. -/
def loadFileSafe (loader : String → Except String PyDocument)
    (relp : String → String) (f : String) :
    Option PyDocument × String × Option String :=
  match loader f with
  | .ok d => (some d, relp f, none)
  | .error e => (none, relp f, some e)

/-- The outcome triples of one batch. -/
def processFiles (loader : String → Except String PyDocument)
    (relp : String → String) (files : List String) :
    List (Option PyDocument × String × Option String) :=
  files.map (loadFileSafe loader relp)

/-- The documents `load_directory` returns: successful outcomes only. -/
def loadDirectoryDocs (loader : String → Except String PyDocument)
    (relp : String → String) (files : List String) : List PyDocument :=
  (processFiles loader relp files).filterMap fun o => o.1

/-- The failures `load_directory` reports (`[FAIL] rel_file: error`
lines): `(relative_path, error_message)` pairs. -/
def reportedFailures (loader : String → Except String PyDocument)
    (relp : String → String) (files : List String) : List (String × String) :=
  (processFiles loader relp files).filterMap fun o =>
    match o with
    | (none, r, some e) => some (r, e)
    | _ => none

/-- `Except.isOk` spelled out over the loader's result. -/
def loaderOk (loader : String → Except String PyDocument) (f : String) : Bool :=
  match loader f with
  | .ok _ => true
  | .error _ => false

/-! ## Concrete fixtures shared by the theorems -/

/-- A concrete, injective-enough embedding collaborator for witnesses. -/
def exEmbed : String → Vec := fun s => [(s.length : ℤ)]

/-- One unfolding of the `while` loop of `_split_text_characters`. -/
theorem splitCharsAux_succ (respect : Bool) (minCS cs co : Nat) (text : List Char)
    (fuel : Nat) (start : Int) (acc : List (List Char)) :
    splitCharsAux respect minCS cs co text (fuel + 1) start acc =
      if start < (text.length : Int) then
        splitCharsAux respect minCS cs co text fuel
          (charIter respect minCS cs co text start).2
          (match (charIter respect minCS cs co text start).1 with
           | some c => acc ++ [c]
           | none => acc)
      else some acc := rfl

/-! ### C4 — the character splitter does not always terminate

With `chunk_size = 10`, `chunk_overlap = 8` and the default
`respect_sentence_boundary = True`, the first window of the text below is
`"abcdefg. x"`. `rfind('. ')` returns 7 > 10 // 2, so the chunk is
truncated and `end = start + 7 + 1 = 8`; then `start = end - 8 = 0`, and
the guard `start <= end - chunk_size` (i.e. `0 <= -2`) does not fire, so
`start` is back at 0: the loop repeats this iteration forever, despite the
`# Avoid infinite loop` comment. -/

def c4Text : List Char := "abcdefg. xxxxxxxxxxxxxxxxxxxx".toList

theorem c4_charIter_stalls : charIter true 50 10 8 c4Text 0 = (none, 0) := by decide

/-- C4: the claim "for every input text and every chunk_size > 0 and
chunk_overlap ≥ 0 … split terminates, in O(len(T)/chunk_size) iterations:
the window start either strictly advances each iteration or is forced to
the window end" is FALSE: on `c4Text` with `chunk_size = 10`,
`chunk_overlap = 8` the window start returns to 0 every iteration and
`_split_text_characters` never terminates (no amount of fuel finishes the
loop). -/
theorem split_text_characters_diverges_on_sentence_stall :
    ∀ fuel, splitTextCharacters true 50 10 8 fuel c4Text = none := by
  have hlt : (0 : Int) < (c4Text.length : Int) := by decide
  have key : ∀ fuel acc, splitCharsAux true 50 10 8 c4Text fuel 0 acc = none := by
    intro fuel
    induction fuel with
    | zero => intro acc; rfl
    | succ f ih =>
      intro acc
      rw [splitCharsAux_succ, if_pos hlt, c4_charIter_stalls]
      exact ih acc
  exact fun fuel => key fuel []

/-! ### C10 — duplicate suppression ignores the incoming batch itself -/

def c10Batch : List Chunk :=
  [{ content := "alpha", meta := { chunkContentHash := some "h0" } },
   { content := "beta", meta := { chunkContentHash := some "h0" } }]

/-- C10: `VectorStore.add_chunks` compares each incoming chunk only
against chunks stored before the call: a single call on an empty store
with two chunks of identical `chunk_content_hash` inserts both and reports
zero duplicates. -/
theorem add_chunks_no_intra_batch_dedup :
    ((addChunksFull exEmbed "m1" emptyFaiss c10Batch).1.chunks.map fun c => c.content)
      = ["alpha", "beta"]
    ∧ (addChunksFull exEmbed "m1" emptyFaiss c10Batch).1.chunks.length = 2
    ∧ (addChunksFull exEmbed "m1" emptyFaiss c10Batch).2 = 0 := by decide

/-! ### C2 — idempotent dedup: counterexample on the Milvus backend -/

def c2Chunk : Chunk :=
  { content := "gamma", meta := { chunkContentHash := some "h2", source := some "a.txt" } }

def c2First : MilvusServer × MilvusInstance :=
  milvusAddChunks exEmbed ⟨none⟩ milvusFresh [c2Chunk]

def c2Second : MilvusServer × MilvusInstance :=
  milvusAddChunks exEmbed c2First.1 c2First.2 [c2Chunk]

/-- C2 counterexample: `MilvusStore.add_chunks` has no duplicate check, so
adding the same one-chunk list twice gives `num_chunks = 2` after the
second call but `1` after the first — the claim's equality fails on the
Milvus backend. -/
theorem milvus_add_twice_changes_num_chunks :
    (milvusGetStats c2Second.1 c2Second.2).numChunks
      ≠ (milvusGetStats c2First.1 c2First.2).numChunks := by decide

/-! ### C3 — Milvus round-trip persistence fails -/

def c3Chunk : Chunk :=
  { content := "delta", meta := { chunkContentHash := some "h3", source := some "d.txt" } }

def c3Sys : MilvusServer × MilvusInstance :=
  milvusAddChunks exEmbed ⟨none⟩ milvusFresh [c3Chunk]

def c3Loaded : MilvusInstance := (milvusLoad c3Sys.1 milvusFresh).1

/-- C3: on the Milvus backend, `save()` (a server-side no-op) followed by
`load()` into a fresh instance does NOT reproduce `get_stats()` or
`search()`: the populated instance reports 1 chunk and a non-empty search
result, while the freshly loaded instance reports 0 chunks and every
search returns `[]`, because `load()` never rebuilds the local chunk list
(milvus_store.py lines 300-302 note this). `milvusSave` is the identity on
both server and instance, so the post-save state is `c3Sys` itself. -/
theorem milvus_load_loses_chunks :
    milvusSave c3Sys.1 c3Sys.2 = c3Sys
    ∧ (milvusGetStats c3Sys.1 c3Sys.2).numChunks = 1
    ∧ milvusSearch exEmbed c3Sys.1 c3Sys.2 "q" 5 ≠ []
    ∧ (milvusLoad c3Sys.1 milvusFresh).2 = true
    ∧ (milvusGetStats c3Sys.1 c3Loaded).numChunks = 0
    ∧ milvusSearch exEmbed c3Sys.1 c3Loaded "q" 5 = [] := by decide

/-! ### C1 — a retrieve path that returns more than `k` results

When the reranker's own retry budget is exhausted (every transport attempt
times out), `StandardRerankerClient.rerank` returns the fallback response
listing ALL candidate documents (reranker_client.py line 165), not the top
`k`; `RAGEngine.retrieve` treats that as a successful rerank and returns
one result per entry. With `rerank_top_k = 2` and `top_k = 1` over a
two-chunk store, `retrieve` returns 2 results where the claim allows at
most 1. -/

def c1Store : FaissStore :=
  buildStore exEmbed "v" [[{ content := "a" }, { content := "bb" }]]

/-- C1: the claim "retrieve(query, top_k=k) returns at most k ranked
results on every path" is FALSE on the degraded path in which the rerank
transport fails on every attempt: the engine returns
`min(max(rerank_top_k, k), num_chunks) = 2 > k = 1` results. -/
theorem retrieve_internal_rerank_fallback_exceeds_top_k :
    (retrieve true (vsSearch exEmbed c1Store)
        (fun docs _ => clientRerank true 3 (fun _ => .timeout) docs)
        2 5 (some 1) "q").length = 2 := by decide

/-! ## Chunk-id assignment invariants (C9) -/

/-- Dense, monotonically increasing ids: the j-th stored chunk carries id j. -/
def chunkIdsDense (chunks : List Chunk) : Prop :=
  chunks.map (fun c => c.chunkId) = (List.range chunks.length).map some

theorem enum_map_fst_comp {α β : Type} (l : List α) (f : Nat → β) :
    l.enum.map (fun p => f p.1) = (List.range l.length).map f := by
  have : (fun p : Nat × α => f p.1) = f ∘ Prod.fst := rfl
  rw [this, ← List.map_map, List.enum_map_fst]

theorem assignIds_map_chunkId (startId : Nat) (l : List Chunk) :
    (assignIds startId l).map (fun c => c.chunkId)
      = (List.range l.length).map (fun i => some (startId + i)) := by
  unfold assignIds
  rw [List.map_map]
  exact enum_map_fst_comp l (fun i => some (startId + i))

theorem assignIds_length (startId : Nat) (l : List Chunk) :
    (assignIds startId l).length = l.length := by
  unfold assignIds
  rw [List.length_map, List.enum_length]

theorem chunkIdsDense_append (cs : List Chunk) (h : chunkIdsDense cs) (nc : List Chunk) :
    chunkIdsDense (cs ++ assignIds cs.length nc) := by
  unfold chunkIdsDense at *
  rw [List.map_append, h, assignIds_map_chunkId, List.length_append, assignIds_length,
    List.range_add, List.map_append, List.map_map]
  rfl

theorem chunkIdsDense_addChunks (embed : String → Vec) (ver : String) (s : FaissStore)
    (l : List Chunk) (h : chunkIdsDense s.chunks) :
    chunkIdsDense (addChunks embed ver s l).chunks := by
  unfold addChunks addChunksFull
  split
  · exact h
  · dsimp only
    split
    · exact h
    · exact chunkIdsDense_append s.chunks h _

theorem chunkIdsDense_buildStore (embed : String → Vec) (ver : String)
    (batches : List (List Chunk)) : chunkIdsDense (buildStore embed ver batches).chunks := by
  unfold buildStore
  have key : ∀ (bs : List (List Chunk)) (s : FaissStore), chunkIdsDense s.chunks →
      chunkIdsDense (bs.foldl (addChunks embed ver) s).chunks := by
    intro bs
    induction bs with
    | nil => intro s hs; exact hs
    | cons b rest ih =>
      intro s hs
      exact ih _ (chunkIdsDense_addChunks embed ver s b hs)
  exact key batches emptyFaiss rfl

theorem milvusAdd_chunks_dense (embed : String → Vec) (srv : MilvusServer)
    (inst : MilvusInstance) (l : List Chunk) (h : chunkIdsDense inst.chunks) :
    chunkIdsDense (milvusAddChunks embed srv inst l).2.chunks := by
  unfold milvusAddChunks
  split
  · exact h
  · dsimp only
    split
    · exact chunkIdsDense_append inst.chunks h _
    · exact chunkIdsDense_append inst.chunks h _

theorem chunkIdsDense_buildMilvus (embed : String → Vec) (batches : List (List Chunk)) :
    chunkIdsDense (buildMilvus embed batches).2.chunks := by
  unfold buildMilvus
  have key : ∀ (bs : List (List Chunk)) (p : MilvusServer × MilvusInstance),
      chunkIdsDense p.2.chunks →
      chunkIdsDense (bs.foldl (fun p l => milvusAddChunks embed p.1 p.2 l) p).2.chunks := by
    intro bs
    induction bs with
    | nil => intro p hp; exact hp
    | cons b rest ih =>
      intro p hp
      exact ih _ (milvusAdd_chunks_dense embed p.1 p.2 b hp)
  exact key batches (⟨none⟩, milvusFresh) rfl

theorem mk_chunks_unassigned (hash : String → String) (docMeta : Meta) (cs co : Nat)
    (useTokens : Bool) (textChunks : List String) :
    (mkDocumentChunks hash docMeta cs co useTokens textChunks).map (fun c => c.chunkId)
      = List.replicate textChunks.length none := by
  refine List.eq_replicate_iff.mpr ⟨?_, ?_⟩
  · rw [List.length_map]
    unfold mkDocumentChunks
    rw [List.length_map, List.enum_length]
  · intro x hx
    rcases List.mem_map.mp hx with ⟨c, hc, hcx⟩
    unfold mkDocumentChunks at hc
    rcases List.mem_map.mp hc with ⟨p, _, hpc⟩
    rw [← hcx, ← hpc]

/-- C9: `chunk_id` is `None` on every chunk `chunk_document` materialises,
and after any sequence of `add_chunks` calls — on the FAISS store and on
the Milvus store alike — the stored chunks carry dense ids `0 ‥
num_chunks − 1`, the j-th stored chunk holding `chunk_id = j` (each add
assigns `current_count + i` to its i-th inserted chunk). -/
theorem chunk_id_unassigned_until_add_then_dense :
    (∀ (hash : String → String) (docMeta : Meta) (cs co : Nat) (useTokens : Bool)
       (textChunks : List String),
       (mkDocumentChunks hash docMeta cs co useTokens textChunks).map (fun c => c.chunkId)
         = List.replicate textChunks.length none)
    ∧ (∀ (embed : String → Vec) (ver : String) (batches : List (List Chunk)),
        (buildStore embed ver batches).chunks.map (fun c => c.chunkId)
          = (List.range (buildStore embed ver batches).chunks.length).map some)
    ∧ ∀ (embed : String → Vec) (batches : List (List Chunk)),
        (buildMilvus embed batches).2.chunks.map (fun c => c.chunkId)
          = (List.range (buildMilvus embed batches).2.chunks.length).map some :=
  ⟨mk_chunks_unassigned,
   fun embed ver batches => chunkIdsDense_buildStore embed ver batches,
   fun embed batches => chunkIdsDense_buildMilvus embed batches⟩

/-! ## Idempotent dedup (C2) -/

theorem strTruthy_eq_some {o : Option String} {h : String} (hh : strTruthy o = some h) :
    o = some h := by
  match o with
  | none => cases hh
  | some s =>
    by_cases hs : s = ""
    · simp only [strTruthy] at hh
      rw [if_pos hs] at hh
      cases hh
    · simp only [strTruthy] at hh
      rw [if_neg hs] at hh
      exact hh

theorem isDup_stampVer (st : List Chunk) (ver : String) (c : Chunk) :
    isDupAgainst st (stampVer ver c) = isDupAgainst st c := rfl

theorem isDup_mono {st st' : List Chunk} (hsub : ∀ e ∈ st, e ∈ st') {c : Chunk}
    (hdup : isDupAgainst st c = true) : isDupAgainst st' c = true := by
  unfold isDupAgainst at *
  cases hcc : strTruthy c.meta.chunkContentHash with
  | some h =>
    rw [hcc] at hdup
    have hdup' : (st.any fun e => e.meta.chunkContentHash == some h) = true := hdup
    have : (st'.any fun e => e.meta.chunkContentHash == some h) = true := by
      rcases List.any_eq_true.mp hdup' with ⟨e, he, hpe⟩
      exact List.any_eq_true.mpr ⟨e, hsub e he, hpe⟩
    exact this
  | none =>
    rw [hcc] at hdup
    cases hch : strTruthy c.meta.contentHash with
    | some h =>
      rw [hch] at hdup
      have hdup' : (st.any fun e => e.meta.contentHash == some h) = true := hdup
      have : (st'.any fun e => e.meta.contentHash == some h) = true := by
        rcases List.any_eq_true.mp hdup' with ⟨e, he, hpe⟩
        exact List.any_eq_true.mpr ⟨e, hsub e he, hpe⟩
      exact this
    | none =>
      rw [hch] at hdup
      have hdup' : false = true := hdup
      cases hdup'

theorem addChunks_mem_mono (embed : String → Vec) (ver : String) (s : FaissStore)
    (l : List Chunk) (e : Chunk) (he : e ∈ s.chunks) :
    e ∈ (addChunks embed ver s l).chunks := by
  unfold addChunks addChunksFull
  split
  · exact he
  · dsimp only
    split
    · exact he
    · exact List.mem_append_left _ he

theorem exists_assigned_meta (startId : Nat) (nc : List Chunk) (x : Chunk)
    (hx : x ∈ nc) : ∃ a ∈ assignIds startId nc, a.meta = x.meta := by
  have hx' : x ∈ nc.enum.map Prod.snd := by rw [List.enum_map_snd]; exact hx
  rcases List.mem_map.mp hx' with ⟨p, hp, hpx⟩
  exact ⟨_, List.mem_map_of_mem _ hp, by rw [← hpx]⟩

theorem isDup_of_add (embed : String → Vec) (ver : String) (s : FaissStore)
    (l : List Chunk) (c : Chunk) (hc : c ∈ l)
    (hh : (strTruthy c.meta.chunkContentHash).isSome
        ∨ (strTruthy c.meta.contentHash).isSome) :
    isDupAgainst (addChunks embed ver s l).chunks c = true := by
  by_cases hd : isDupAgainst s.chunks c = true
  · exact isDup_mono (addChunks_mem_mono embed ver s l) hd
  · have hd' : isDupAgainst s.chunks c = false := by
      revert hd
      cases isDupAgainst s.chunks c <;> simp
    have hmem : stampVer ver c ∈ newChunksOf ver s.chunks l := by
      unfold newChunksOf
      refine List.mem_filter.mpr ⟨List.mem_map_of_mem _ hc, ?_⟩
      rw [isDup_stampVer, hd']
      rfl
    have hne : ¬l.isEmpty = true := by
      cases l with
      | nil => cases hc
      | cons a t => simp
    have hnne : ¬(newChunksOf ver s.chunks l).isEmpty = true := by
      cases hmm : newChunksOf ver s.chunks l with
      | nil => rw [hmm] at hmem; cases hmem
      | cons a t => simp
    have hchunks : (addChunks embed ver s l).chunks
        = s.chunks ++ assignIds s.chunks.length (newChunksOf ver s.chunks l) := by
      unfold addChunks addChunksFull
      rw [if_neg hne, if_neg hnne]
    rcases exists_assigned_meta s.chunks.length _ _ hmem with ⟨a, ha, hameta⟩
    rw [hchunks]
    unfold isDupAgainst
    cases hcc : strTruthy c.meta.chunkContentHash with
    | some h =>
      have hraw : c.meta.chunkContentHash = some h := strTruthy_eq_some hcc
      have hpa : (a.meta.chunkContentHash == some h) = true := by
        rw [hameta]
        show ((stampVer ver c).meta.chunkContentHash == some h) = true
        rw [show (stampVer ver c).meta.chunkContentHash = c.meta.chunkContentHash from rfl,
          hraw]
        simp
      have : ((s.chunks ++ assignIds s.chunks.length (newChunksOf ver s.chunks l)).any
          fun e => e.meta.chunkContentHash == some h) = true :=
        List.any_eq_true.mpr ⟨a, List.mem_append_right _ ha, hpa⟩
      exact this
    | none =>
      cases hch : strTruthy c.meta.contentHash with
      | some h =>
        have hraw : c.meta.contentHash = some h := strTruthy_eq_some hch
        have hpa : (a.meta.contentHash == some h) = true := by
          rw [hameta]
          show ((stampVer ver c).meta.contentHash == some h) = true
          rw [show (stampVer ver c).meta.contentHash = c.meta.contentHash from rfl, hraw]
          simp
        have : ((s.chunks ++ assignIds s.chunks.length (newChunksOf ver s.chunks l)).any
            fun e => e.meta.contentHash == some h) = true :=
          List.any_eq_true.mpr ⟨a, List.mem_append_right _ ha, hpa⟩
        exact this
      | none =>
        rw [hcc, hch] at hh
        simp at hh

theorem addChunks_eq_self_of_all_dup (embed : String → Vec) (ver : String)
    (s : FaissStore) (l : List Chunk)
    (hall : ∀ c ∈ l, isDupAgainst s.chunks (stampVer ver c) = true) :
    addChunks embed ver s l = s := by
  unfold addChunks addChunksFull
  by_cases hl : l.isEmpty = true
  · rw [if_pos hl]
  · rw [if_neg hl]
    have hnil : newChunksOf ver s.chunks l = [] := by
      unfold newChunksOf
      refine List.filter_eq_nil_iff.mpr ?_
      intro c hc
      rcases List.mem_map.mp hc with ⟨c0, hc0, rfl⟩
      simp [hall c0 hc0]
    simp [hnil]

theorem addChunks_idem (embed : String → Vec) (ver : String) (s : FaissStore)
    (l : List Chunk)
    (hhash : ∀ c ∈ l, (strTruthy c.meta.chunkContentHash).isSome
        ∨ (strTruthy c.meta.contentHash).isSome) :
    addChunks embed ver (addChunks embed ver s l) l = addChunks embed ver s l := by
  apply addChunks_eq_self_of_all_dup
  intro c hc
  rw [isDup_stampVer]
  exact isDup_of_add embed ver s l c hc (hhash c hc)

theorem milvusAdd_num_chunks (embed : String → Vec) (srv : MilvusServer)
    (inst : MilvusInstance) (l : List Chunk) :
    (milvusAddChunks embed srv inst l).2.chunks.length
      = inst.chunks.length + l.length := by
  unfold milvusAddChunks
  split
  · rename_i h
    rw [List.isEmpty_iff.mp h]
    rfl
  · dsimp only
    split
    · rw [List.length_append, assignIds_length]
    · rw [List.length_append, assignIds_length]

/-- C2 (amended): calling `add(chunks)` twice with the same list inserts
the chunks once on the FAISS-backed `VectorStore`, provided every chunk
carries a truthy `chunk_content_hash` or `content_hash` (a chunk with
neither is re-inserted by design, vector_store.py lines 100-102); the
second call leaves the store unchanged, so `num_chunks` agrees. The claim
is NOT backend-independent: `MilvusStore.add_chunks` performs no duplicate
suppression at all, so on that backend the second call doubles the
inserted count (`num_chunks = |stored| + 2·|l|`). -/
theorem add_chunks_idempotent_dedup_amended :
    (∀ (embed : String → Vec) (ver : String) (s : FaissStore) (l : List Chunk),
       (∀ c ∈ l, (strTruthy c.meta.chunkContentHash).isSome
           ∨ (strTruthy c.meta.contentHash).isSome) →
       (faissGetStats (addChunks embed ver (addChunks embed ver s l) l)).numChunks
         = (faissGetStats (addChunks embed ver s l)).numChunks)
    ∧ ∀ (embed : String → Vec) (srv : MilvusServer) (inst : MilvusInstance)
        (l : List Chunk),
        (milvusAddChunks embed (milvusAddChunks embed srv inst l).1
            (milvusAddChunks embed srv inst l).2 l).2.chunks.length
          = inst.chunks.length + 2 * l.length := by
  constructor
  · intro embed ver s l hhash
    rw [addChunks_idem embed ver s l hhash]
  · intro embed srv inst l
    rw [milvusAdd_num_chunks, milvusAdd_num_chunks]
    omega

/-- A closed instance of the amended C2 statement: both halves evaluated
at a concrete store, batch and embedding collaborator. -/
theorem add_chunks_idempotent_dedup_amended_witness :
    (faissGetStats (addChunks exEmbed "v" (addChunks exEmbed "v" emptyFaiss [c2Chunk])
        [c2Chunk])).numChunks
      = (faissGetStats (addChunks exEmbed "v" emptyFaiss [c2Chunk])).numChunks
    ∧ (milvusAddChunks exEmbed (milvusAddChunks exEmbed ⟨none⟩ milvusFresh [c2Chunk]).1
          (milvusAddChunks exEmbed ⟨none⟩ milvusFresh [c2Chunk]).2 [c2Chunk]).2.chunks.length
        = milvusFresh.chunks.length + 2 * 1 :=
  ⟨add_chunks_idempotent_dedup_amended.1 exEmbed "v" emptyFaiss [c2Chunk]
      (by intro c hc; simp [c2Chunk] at hc; rw [hc]; left; rfl),
   add_chunks_idempotent_dedup_amended.2 exEmbed ⟨none⟩ milvusFresh [c2Chunk]⟩

/-! ## FAISS search: count, order and score provenance (C6, C7) -/

/-- Invariant of a FAISS store populated only through `add_chunks`: the
index holds, in order, exactly the ids `0 ‥ num_chunks − 1` and the
embeddings of the stored chunks' contents. -/
def FaissWf (embed : String → Vec) (s : FaissStore) : Prop :=
  (s.index.getD []).map Prod.fst = List.range s.chunks.length
  ∧ (s.index.getD []).map Prod.snd = s.chunks.map fun c => embed c.content

theorem assignIds_entries_fst (embed : String → Vec) (startId : Nat) (nc : List Chunk) :
    ((assignIds startId nc).map fun c => (c.chunkId.getD 0, embed c.content)).map Prod.fst
      = (List.range nc.length).map fun i => startId + i := by
  unfold assignIds
  rw [List.map_map, List.map_map]
  exact enum_map_fst_comp nc (fun i => startId + i)

theorem assignIds_entries_snd (embed : String → Vec) (startId : Nat) (nc : List Chunk) :
    ((assignIds startId nc).map fun c => (c.chunkId.getD 0, embed c.content)).map Prod.snd
      = (assignIds startId nc).map fun c => embed c.content := by
  rw [List.map_map]
  rfl

theorem faissWf_empty (embed : String → Vec) : FaissWf embed emptyFaiss := ⟨rfl, rfl⟩

theorem faissWf_addChunks (embed : String → Vec) (ver : String) (s : FaissStore)
    (l : List Chunk) (h : FaissWf embed s) : FaissWf embed (addChunks embed ver s l) := by
  unfold addChunks addChunksFull
  split
  · exact h
  · dsimp only
    split
    · exact h
    · constructor
      · show ((s.index.getD [] ++ _).map Prod.fst) = _
        rw [List.map_append, h.1, assignIds_entries_fst, List.length_append,
          assignIds_length, List.range_add]
      · show ((s.index.getD [] ++ _).map Prod.snd) = _
        rw [List.map_append, h.2, assignIds_entries_snd, List.map_append]

theorem faissWf_buildStore (embed : String → Vec) (ver : String)
    (batches : List (List Chunk)) : FaissWf embed (buildStore embed ver batches) := by
  unfold buildStore
  have key : ∀ (bs : List (List Chunk)) (s : FaissStore), FaissWf embed s →
      FaissWf embed (bs.foldl (addChunks embed ver) s) := by
    intro bs
    induction bs with
    | nil => intro s hs; exact hs
    | cons b rest ih => intro s hs; exact ih _ (faissWf_addChunks embed ver s b hs)
  exact key batches emptyFaiss (faissWf_empty embed)

theorem sqL2_nonneg (u v : Vec) : 0 ≤ sqL2 u v := by
  unfold sqL2
  apply List.sum_nonneg
  intro x hx
  rcases List.mem_map.mp hx with ⟨p, _, rfl⟩
  exact mul_self_nonneg _

theorem filterMap_eq_map_of_some {α β : Type} {f : α → Option β} {g : α → β}
    {l : List α} (h : ∀ a ∈ l, f a = some (g a)) : l.filterMap f = l.map g := by
  induction l with
  | nil => rfl
  | cons a t ih =>
    rw [List.filterMap_cons_some (h a (List.mem_cons_self a t)), List.map_cons,
      ih fun x hx => h x (List.mem_cons_of_mem a hx)]

theorem searchHit_pad (s : FaissStore) : searchHit s ((0 : Int), (-1 : Int)) = none := by
  unfold searchHit
  rw [if_neg]
  rintro ⟨h0, -⟩
  norm_num at h0

theorem searchHit_of_entry (s : FaissStore) (d : Int) (j : Nat) (c : Chunk)
    (hget : s.chunks.get? j = some c) (hlt : j < s.chunks.length) :
    searchHit s (d, (j : Int)) = some (c, 1 / (1 + (d : ℚ))) := by
  unfold searchHit
  rw [if_pos ⟨Int.natCast_nonneg j, show ((j : Int) : Int) < (s.chunks.length : Int) by exact_mod_cast hlt⟩]
  show (s.chunks.get? (j : Int).toNat).map _ = _
  rw [Int.toNat_natCast, hget]
  rfl

theorem faiss_entry_spec (embed : String → Vec) (s : FaissStore) (q : String)
    (idx : List (Nat × Vec)) (hidx : s.index = some idx) (h : FaissWf embed s)
    (p : Int × Int)
    (hp : p ∈ idx.map fun e => (sqL2 (embed q) e.2, (e.1 : Int))) :
    ∃ j c, s.chunks.get? j = some c ∧ j < s.chunks.length
      ∧ p = (sqL2 (embed q) (embed c.content), (j : Int)) := by
  rcases List.mem_map.mp hp with ⟨e, he, rfl⟩
  rcases List.get?_of_mem he with ⟨pos, hpos⟩
  have h1 := h.1
  have h2 := h.2
  rw [hidx] at h1 h2
  have h1' : idx.map Prod.fst = List.range s.chunks.length := h1
  have h2' : idx.map Prod.snd = s.chunks.map (fun c => embed c.content) := h2
  have hfst : (List.range s.chunks.length).get? pos = some e.1 := by
    rw [← h1', List.get?_map, hpos]; rfl
  have hlt : pos < s.chunks.length := by
    rcases List.get?_eq_some.mp hfst with ⟨hl, -⟩
    rwa [List.length_range] at hl
  have he1 : e.1 = pos := by
    have hr := List.get?_range hlt
    rw [hr] at hfst
    cases hfst
    rfl
  have hsnd : (s.chunks.map fun c => embed c.content).get? pos = some e.2 := by
    rw [← h2', List.get?_map, hpos]; rfl
  rw [List.get?_map] at hsnd
  rcases Option.map_eq_some'.mp hsnd with ⟨c, hc, hce⟩
  exact ⟨pos, c, hc, hlt, by rw [← hce, he1]⟩

theorem vsSearch_spec (embed : String → Vec) (s : FaissStore) (q : String) (k : Nat)
    (h : FaissWf embed s) :
    (vsSearch embed s q k).length = min k s.chunks.length
    ∧ ((vsSearch embed s q k).map fun r => r.2).Pairwise (fun a b => a ≥ b)
    ∧ ∀ r ∈ vsSearch embed s q k,
        r.2 = 1 / (1 + (sqL2 (embed q) (embed r.1.content) : ℚ)) ∧ r.1 ∈ s.chunks := by
  cases hidx : s.index with
  | none =>
    have h1 : ([] : List (Nat × Vec)).map Prod.fst = List.range s.chunks.length := by
      have h1 := h.1
      rw [hidx] at h1
      exact h1
    have hn : s.chunks.length = 0 := by
      rw [List.map_nil] at h1
      exact List.range_eq_nil.mp h1.symm
    have hv : vsSearch embed s q k = [] := by
      unfold vsSearch
      rw [hidx]
    rw [hv, hn]
    exact ⟨by simp, by simp, by simp⟩
  | some idx =>
    by_cases hemp : s.chunks.isEmpty
    · have hn : s.chunks.length = 0 := by rw [List.isEmpty_iff.mp hemp]; rfl
      have hv : vsSearch embed s q k = [] := by
        unfold vsSearch
        rw [hidx]
        dsimp only
        rw [if_pos hemp]
      rw [hv, hn]
      exact ⟨by simp, by simp, by simp⟩
    · have hv : vsSearch embed s q k
          = (faissRawSearch idx (embed q) k).filterMap (searchHit s) := by
        unfold vsSearch
        rw [hidx]
        dsimp only
        rw [if_neg hemp]
      -- the sorted top-k hits and the sentinel padding
      have hraw : faissRawSearch idx (embed q) k
          = (List.insertionSort byDist (idx.map fun e =>
              (sqL2 (embed q) e.2, (e.1 : Int)))).take k
            ++ List.replicate
              (k - ((List.insertionSort byDist (idx.map fun e =>
                (sqL2 (embed q) e.2, (e.1 : Int)))).take k).length) ((0:Int), (-1:Int)) :=
        rfl
      -- every hit is a mapped index entry
      have hhitmem : ∀ p ∈ (List.insertionSort byDist (idx.map fun e =>
          (sqL2 (embed q) e.2, (e.1 : Int)))).take k,
          p ∈ idx.map fun e => (sqL2 (embed q) e.2, (e.1 : Int)) := by
        intro p hp
        have hp' := (List.take_sublist k _).subset hp
        exact ((List.perm_insertionSort byDist _).mem_iff).mp hp'
      -- searchHit is `some` on every hit, with an explicit value
      have hsome : ∀ p ∈ (List.insertionSort byDist (idx.map fun e =>
          (sqL2 (embed q) e.2, (e.1 : Int)))).take k,
          searchHit s p = some ((s.chunks.get? p.2.toNat).getD ⟨"", {}, none⟩,
            1 / (1 + (p.1 : ℚ))) := by
        intro p hp
        rcases faiss_entry_spec embed s q idx hidx h p (hhitmem p hp) with ⟨j, c, hget, hlt, hpe⟩
        rw [hpe]
        rw [searchHit_of_entry s _ j c hget hlt]
        have : ((j : Int).toNat) = j := Int.toNat_natCast j
        rw [show ((sqL2 (embed q) (embed c.content), (j : Int)).2.toNat) = j from this]
        rw [hget]
        rfl
      -- the padding contributes nothing
      have hpadnil : (List.replicate
          (k - ((List.insertionSort byDist (idx.map fun e =>
            (sqL2 (embed q) e.2, (e.1 : Int)))).take k).length)
          ((0:Int), (-1:Int))).filterMap (searchHit s) = [] := by
        refine List.filterMap_eq_nil_iff.mpr ?_
        intro a ha
        rw [(List.mem_replicate.mp ha).2]
        exact searchHit_pad s
      have hmain : vsSearch embed s q k
          = ((List.insertionSort byDist (idx.map fun e =>
              (sqL2 (embed q) e.2, (e.1 : Int)))).take k).map
              (fun p => ((s.chunks.get? p.2.toNat).getD ⟨"", {}, none⟩,
                1 / (1 + (p.1 : ℚ)))) := by
        rw [hv, hraw, List.filterMap_append, hpadnil, List.append_nil,
          filterMap_eq_map_of_some hsome]
      -- length of the index
      have hidxlen : idx.length = s.chunks.length := by
        have h1 := h.1
        rw [hidx] at h1
        have h1' : idx.map Prod.fst = List.range s.chunks.length := h1
        have := congrArg List.length h1'
        rwa [List.length_map, List.length_range] at this
      refine ⟨?_, ?_, ?_⟩
      · rw [hmain, List.length_map, List.length_take, List.length_insertionSort,
          List.length_map, hidxlen]
      · -- sortedness of the scores
        rw [hmain, List.map_map]
        rw [List.pairwise_map]
        have hsorted : List.Pairwise byDist ((List.insertionSort byDist
            (idx.map fun e => (sqL2 (embed q) e.2, (e.1 : Int)))).take k) :=
          List.Pairwise.sublist (List.take_sublist k _) (List.sorted_insertionSort byDist _)
        refine hsorted.imp_of_mem ?_
        intro a b ha hb hab
        have hha : 0 ≤ a.1 := by
          rcases faiss_entry_spec embed s q idx hidx h a (hhitmem a ha) with ⟨_, _, _, _, hae⟩
          rw [hae]
          exact sqL2_nonneg _ _
        have h1a : (0 : ℚ) < 1 + (a.1 : ℚ) := by
          have : (0 : ℚ) ≤ (a.1 : ℚ) := by exact_mod_cast hha
          linarith
        have hle : (1 : ℚ) + (a.1 : ℚ) ≤ 1 + (b.1 : ℚ) := by
          have : (a.1 : ℚ) ≤ (b.1 : ℚ) := by exact_mod_cast hab
          linarith
        exact one_div_le_one_div_of_le h1a hle
      · -- score provenance
        intro r hr
        rw [hmain] at hr
        rcases List.mem_map.mp hr with ⟨p, hp, hpr⟩
        rcases faiss_entry_spec embed s q idx hidx h p (hhitmem p hp) with
          ⟨j, c, hget, hlt, hpe⟩
        have hr1 : r.1 = c := by
          rw [← hpr, hpe]
          show ((s.chunks.get? ((j : Int)).toNat).getD ⟨"", {}, none⟩) = c
          rw [Int.toNat_natCast, hget]
          rfl
        have hr2 : r.2 = 1 / (1 + (sqL2 (embed q) (embed c.content) : ℚ)) := by
          rw [← hpr, hpe]
        constructor
        · rw [hr2, hr1]
        · rw [hr1]
          exact List.get?_mem hget

/-- C7: on a FAISS-backed `VectorStore` populated through any sequence of
`add_chunks` calls, `search(query, top_k)` returns exactly
`min(top_k, num_chunks)` results (sentinel `-1` ids from the backend are
ignored) — e.g. 3 chunks with `top_k = 5` yields exactly 3 — ordered best
score first (scores pairwise non-increasing), and every result's score is
`1 / (1 + distance)` for the backend's (squared-L2) distance between the
query embedding and that chunk's embedding, so higher score means
closer. -/
theorem faiss_search_score_order_and_count :
    ∀ (embed : String → Vec) (ver : String) (batches : List (List Chunk))
      (q : String) (k : Nat),
      (vsSearch embed (buildStore embed ver batches) q k).length
          = min k (buildStore embed ver batches).chunks.length
      ∧ ((vsSearch embed (buildStore embed ver batches) q k).map fun r => r.2).Pairwise
          (fun a b => a ≥ b)
      ∧ ∀ r ∈ vsSearch embed (buildStore embed ver batches) q k,
          r.2 = 1 / (1 + (sqL2 (embed q) (embed r.1.content) : ℚ))
          ∧ r.1 ∈ (buildStore embed ver batches).chunks :=
  fun embed ver batches q k =>
    vsSearch_spec embed (buildStore embed ver batches) q k
      (faissWf_buildStore embed ver batches)

/-- C6: when the reranking collaborator raises on every call,
`retrieve(query, top_k=k)` (reranking enabled) falls back to the first `k`
broad-retrieve candidates: it returns exactly `min(k, num_chunks)`
results, and they are precisely the vector-search results in original
rank order, carrying the original vector-search scores (and 1-based
`original_rank`). `k` ranges over positive values; `top_k=0`/`None` means
"use the engine default" in the code (`k = top_k or self.top_k`). -/
theorem retrieve_fallback_on_raising_reranker :
    ∀ (embed : String → Vec) (ver : String) (batches : List (List Chunk))
      (rtk dk k : Nat) (q : String), 0 < k →
      retrieve true (vsSearch embed (buildStore embed ver batches))
          (fun _ _ => .error ()) rtk dk (some k) q
        = ((vsSearch embed (buildStore embed ver batches) q (max rtk k)).enum.map
            mkInitialDoc).take k
      ∧ (retrieve true (vsSearch embed (buildStore embed ver batches))
          (fun _ _ => .error ()) rtk dk (some k) q).length
        = min k (buildStore embed ver batches).chunks.length := by
  intro embed ver batches rtk dk k q hk
  have hpy : pyOrNat (some k) dk = k := by
    cases k with
    | zero => cases hk
    | succ n => rfl
  have hret : retrieve true (vsSearch embed (buildStore embed ver batches))
      (fun _ _ => .error ()) rtk dk (some k) q
      = ((vsSearch embed (buildStore embed ver batches) q (max rtk k)).enum.map
          mkInitialDoc).take k := by
    unfold retrieve
    rw [hpy]
    rfl
  refine ⟨hret, ?_⟩
  rw [hret, List.length_take, List.length_map, List.enum_length,
    (vsSearch_spec embed _ q (max rtk k) (faissWf_buildStore embed ver batches)).1]
  omega

def c6Batches : List (List Chunk) := [[{ content := "x" }, { content := "yy" }]]

/-- The C6 theorem applied at a concrete two-chunk store with `k = 1`. -/
theorem retrieve_fallback_on_raising_reranker_witness :
    retrieve true (vsSearch exEmbed (buildStore exEmbed "w" c6Batches))
        (fun _ _ => .error ()) 3 5 (some 1) "q"
      = ((vsSearch exEmbed (buildStore exEmbed "w" c6Batches) "q" (max 3 1)).enum.map
          mkInitialDoc).take 1
    ∧ (retrieve true (vsSearch exEmbed (buildStore exEmbed "w" c6Batches))
        (fun _ _ => .error ()) 3 5 (some 1) "q").length
      = min 1 (buildStore exEmbed "w" c6Batches).chunks.length :=
  retrieve_fallback_on_raising_reranker exEmbed "w" c6Batches 3 5 1 "q" Nat.one_pos

/-! ## Per-file error isolation in `load_directory` (C8) -/

theorem loadDirectoryDocs_cons_ok (loader : String → Except String PyDocument)
    (relp : String → String) (f : String) (rest : List String) (d : PyDocument)
    (hd : loader f = .ok d) :
    loadDirectoryDocs loader relp (f :: rest) = d :: loadDirectoryDocs loader relp rest := by
  unfold loadDirectoryDocs processFiles
  rw [List.map_cons]
  refine List.filterMap_cons_some ?_
  show (loadFileSafe loader relp f).1 = some d
  unfold loadFileSafe
  rw [hd]

theorem loadDirectoryDocs_cons_err (loader : String → Except String PyDocument)
    (relp : String → String) (f : String) (rest : List String) (e : String)
    (he : loader f = .error e) :
    loadDirectoryDocs loader relp (f :: rest) = loadDirectoryDocs loader relp rest := by
  unfold loadDirectoryDocs processFiles
  rw [List.map_cons]
  refine List.filterMap_cons_none ?_
  show (loadFileSafe loader relp f).1 = none
  unfold loadFileSafe
  rw [he]

theorem reportedFailures_cons_ok (loader : String → Except String PyDocument)
    (relp : String → String) (f : String) (rest : List String) (d : PyDocument)
    (hd : loader f = .ok d) :
    reportedFailures loader relp (f :: rest) = reportedFailures loader relp rest := by
  unfold reportedFailures processFiles
  rw [List.map_cons]
  refine List.filterMap_cons_none ?_
  show (match loadFileSafe loader relp f with
    | (none, r, some e) => some (r, e)
    | _ => none) = none
  unfold loadFileSafe
  rw [hd]

theorem reportedFailures_cons_err (loader : String → Except String PyDocument)
    (relp : String → String) (f : String) (rest : List String) (e : String)
    (he : loader f = .error e) :
    reportedFailures loader relp (f :: rest)
      = (relp f, e) :: reportedFailures loader relp rest := by
  unfold reportedFailures processFiles
  rw [List.map_cons]
  refine List.filterMap_cons_some ?_
  show (match loadFileSafe loader relp f with
    | (none, r, some e) => some (r, e)
    | _ => none) = some (relp f, e)
  unfold loadFileSafe
  rw [he]

theorem loadDirectory_all_ok (loader : String → Except String PyDocument)
    (relp : String → String) (files : List String)
    (h : ∀ f ∈ files, loaderOk loader f = true) :
    (loadDirectoryDocs loader relp files).length = files.length
    ∧ reportedFailures loader relp files = [] := by
  induction files with
  | nil => exact ⟨rfl, rfl⟩
  | cons f rest ih =>
    have hf := h f (List.mem_cons_self f rest)
    have hd : ∃ d, loader f = .ok d := by
      unfold loaderOk at hf
      cases hl : loader f with
      | ok d => exact ⟨d, rfl⟩
      | error e => rw [hl] at hf; cases hf
    rcases hd with ⟨d, hd⟩
    have ihr := ih fun x hx => h x (List.mem_cons_of_mem f hx)
    constructor
    · rw [loadDirectoryDocs_cons_ok loader relp f rest d hd, List.length_cons, ihr.1,
        List.length_cons]
    · rw [reportedFailures_cons_ok loader relp f rest d hd, ihr.2]

theorem load_directory_isolation_aux (loader : String → Except String PyDocument)
    (relp : String → String) (files : List String) (bad : String) (msg : String) :
    bad ∈ files → files.count bad = 1 → loader bad = .error msg →
    (∀ f ∈ files, f ≠ bad → loaderOk loader f = true) →
    (loadDirectoryDocs loader relp files).length = files.length - 1
    ∧ reportedFailures loader relp files = [(relp bad, msg)] := by
  induction files with
  | nil => intro hb; cases hb
  | cons f rest ih =>
    intro hb hcount herr hok
    by_cases hf : f = bad
    · subst hf
      have hrest0 : rest.count f = 0 := by
        have hcc : (f :: rest).count f = rest.count f + 1 := List.count_cons_self f rest
        omega
      have hnotin : f ∉ rest := List.count_eq_zero.mp hrest0
      have hallok : ∀ x ∈ rest, loaderOk loader x = true := by
        intro x hx
        refine hok x (List.mem_cons_of_mem _ hx) ?_
        rintro rfl
        exact hnotin hx
      have hall := loadDirectory_all_ok loader relp rest hallok
      constructor
      · rw [loadDirectoryDocs_cons_err loader relp f rest msg herr, hall.1,
          List.length_cons]
        omega
      · rw [reportedFailures_cons_err loader relp f rest msg herr, hall.2]
    · have hbr : bad ∈ rest := by
        rcases List.mem_cons.mp hb with h1 | h2
        · exact absurd h1.symm hf
        · exact h2
      have hcount' : rest.count bad = 1 := by
        rw [List.count_cons_of_ne (fun hne => hf hne.symm)] at hcount
        exact hcount
      have hokf : loaderOk loader f = true := hok f (List.mem_cons_self f rest) hf
      have hd : ∃ d, loader f = .ok d := by
        unfold loaderOk at hokf
        cases hl : loader f with
        | ok d => exact ⟨d, rfl⟩
        | error e => rw [hl] at hokf; cases hokf
      rcases hd with ⟨d, hd⟩
      have ihres := ih hbr hcount' herr fun x hx hxb => hok x (List.mem_cons_of_mem _ hx) hxb
      constructor
      · rw [loadDirectoryDocs_cons_ok loader relp f rest d hd, List.length_cons, ihres.1,
          List.length_cons]
        have hpos : 0 < rest.length := List.length_pos_of_mem hbr
        omega
      · rw [reportedFailures_cons_ok loader relp f rest d hd, ihres.2]

/-- C8: an exception raised while extracting one file of a batch does not
abort the batch: the failing file yields the outcome
`(None, relative_path, error_message)` and every other file yields
`(Document, relative_path, None)`, so a batch of N files with exactly one
failing file returns N − 1 documents and reports exactly one failure,
naming the failing file's relative path. (`files` ranges over arbitrary
lists, which also covers the completion orders of the thread/process
pools, since those collect the same per-file outcomes in some permuted
order.) -/
theorem load_directory_isolates_per_file_errors :
    ∀ (loader : String → Except String PyDocument) (relp : String → String)
      (files : List String) (bad : String) (msg : String),
      bad ∈ files → files.count bad = 1 → loader bad = .error msg →
      (∀ f ∈ files, f ≠ bad → loaderOk loader f = true) →
      (loadDirectoryDocs loader relp files).length = files.length - 1
      ∧ reportedFailures loader relp files = [(relp bad, msg)] :=
  fun loader relp files bad msg =>
    load_directory_isolation_aux loader relp files bad msg

def c8Loader : String → Except String PyDocument :=
  fun f => if f = "f3" then .error "boom" else .ok ⟨String.append "doc " f, {}⟩

def c8Files : List String := ["f1", "f2", "f3", "f4", "f5"]

def c8Relp : String → String := fun f => String.append "dir/" f

/-- The C8 theorem applied to scenario D: 5 files, file #3 raises → 4
documents and one reported failure naming file #3's relative path. -/
theorem load_directory_isolates_per_file_errors_witness :
    (loadDirectoryDocs c8Loader c8Relp c8Files).length = c8Files.length - 1
    ∧ reportedFailures c8Loader c8Relp c8Files = [(c8Relp "f3", "boom")] :=
  load_directory_isolates_per_file_errors c8Loader c8Relp c8Files "f3" "boom"
    (by decide) (by decide) rfl (by decide)

/-! ## Splitter edge cases (C5) -/

theorem mem_pySlice {α : Type} {x : α} {s : List α} {a b : Int}
    (h : x ∈ pySlice s a b) : x ∈ s := by
  simp only [pySlice] at h
  repeat' split at h
  all_goals first
    | exact List.drop_subset _ _ (List.take_subset _ _ h)
    | cases h

theorem pyStrip_ws (s : List Char) (h : ∀ c ∈ s, isPySpace c = true) :
    pyStrip s = [] := by
  unfold pyStrip
  rw [List.dropWhile_eq_nil_iff.mpr h]
  rfl

theorem charWindow_fst_mem (respect : Bool) (cs : Nat) (text : List Char)
    (start : Int) (x : Char) (hx : x ∈ (charWindow respect cs text start).1) :
    x ∈ text := by
  unfold charWindow at hx
  dsimp only at hx
  by_cases h1 : (start + (cs : Int)) < (text.length : Int) ∧ respect = true
  · rw [if_pos h1] at hx
    by_cases h2 : lastSentence (pySlice text start (start + cs)) 0 > ((cs / 2 : Nat) : Int)
    · rw [if_pos h2] at hx
      exact mem_pySlice (mem_pySlice hx)
    · rw [if_neg h2] at hx
      by_cases h3 : (pySlice text start (start + cs)).contains ' ' = true
      · rw [if_pos h3] at hx
        by_cases h4 : rfind1From ' ' (pySlice text start (start + cs)) 0
            > ((cs / 2 : Nat) : Int)
        · rw [if_pos h4] at hx
          exact mem_pySlice (mem_pySlice hx)
        · rw [if_neg h4] at hx
          exact mem_pySlice hx
      · rw [if_neg h3] at hx
        exact mem_pySlice hx
  · rw [if_neg h1] at hx
    exact mem_pySlice hx

theorem charIter_ws (respect : Bool) (minCS cs co : Nat) (text : List Char)
    (start : Int) (hws : ∀ c ∈ text, isPySpace c = true) :
    (charIter respect minCS cs co text start).1 = none := by
  unfold charIter
  dsimp only
  have h0 : pyStrip (charWindow respect cs text start).1 = [] :=
    pyStrip_ws _ fun c hc => hws c (charWindow_fst_mem respect cs text start c hc)
  rw [h0]
  simp

theorem splitChars_ws_acc (respect : Bool) (minCS cs co : Nat) (text : List Char)
    (hws : ∀ c ∈ text, isPySpace c = true) :
    ∀ (fuel : Nat) (start : Int) (acc l : List (List Char)),
      splitCharsAux respect minCS cs co text fuel start acc = some l → l = acc := by
  intro fuel
  induction fuel with
  | zero =>
    intro start acc l h
    cases h
  | succ f ih =>
    intro start acc l h
    rw [splitCharsAux_succ] at h
    by_cases hlt : start < (text.length : Int)
    · rw [if_pos hlt, charIter_ws respect minCS cs co text start hws] at h
      exact ih _ _ _ h
    · rw [if_neg hlt] at h
      cases h
      rfl

theorem pySlice_all {α : Type} (s : List α) (b : Int) (hb : (s.length : Int) ≤ b) :
    pySlice s 0 b = s := by
  unfold pySlice
  dsimp only
  have hb0 : ¬(b < 0) := not_lt.mpr (le_trans (Int.natCast_nonneg _) hb)
  have h00 : ¬((0 : Int) < 0) := by norm_num
  rw [if_neg h00, if_neg hb0]
  have hmin0 : min (0 : Int) (s.length : Int) = 0 := min_eq_left (Int.natCast_nonneg _)
  have hminb : min b (s.length : Int) = (s.length : Int) := min_eq_right hb
  rw [hmin0, hminb]
  by_cases hsz : (0 : Int) < (s.length : Int)
  · rw [if_pos hsz]
    rw [show ((0 : Int)).toNat = 0 from rfl, List.drop_zero,
      show ((s.length : Int) - 0).toNat = s.length by simp, List.take_length]
  · rw [if_neg hsz]
    have hzero : s.length = 0 := by omega
    rw [List.length_eq_zero.mp hzero]

theorem splitChars_short (respect : Bool) (minCS cs co : Nat) (fuel : Nat)
    (text : List Char) (hlen : text.length ≤ cs)
    (hexit : co < cs → text.length ≤ cs - co)
    (hne : pyStrip text ≠ []) (hmin : minCS ≤ (pyStrip text).length) :
    splitTextCharacters respect minCS cs co (fuel + 2) text = some [pyStrip text] := by
  have hlen0 : 0 < text.length := by
    cases htext : text with
    | nil => rw [htext] at hne; exact absurd rfl hne
    | cons a t => simp
  have hchunk : pySlice text 0 ((0 : Int) + cs) = text := by
    rw [zero_add]
    exact pySlice_all text cs (by exact_mod_cast hlen)
  have hnotrunc : ¬(((0 : Int) + cs) < (text.length : Int) ∧ respect = true) := by
    rintro ⟨hc, -⟩
    have hlen' : (text.length : Int) ≤ (cs : Int) := by exact_mod_cast hlen
    omega
  have hwin : charWindow respect cs text 0 = (text, (0 : Int) + cs) := by
    unfold charWindow
    dsimp only
    rw [if_neg hnotrunc, hchunk]
  have hci : charIter respect minCS cs co text 0
      = (some (pyStrip text),
         if ((0 : Int) + cs) - co ≤ ((0 : Int) + cs) - cs then (0 : Int) + cs
         else ((0 : Int) + cs) - co) := by
    unfold charIter
    rw [hwin]
    dsimp only
    rw [if_pos ⟨hne, hmin⟩]
  have hS : ¬((if ((0 : Int) + cs) - co ≤ ((0 : Int) + cs) - cs then (0 : Int) + cs
      else ((0 : Int) + cs) - co) < (text.length : Int)) := by
    have hlen' : (text.length : Int) ≤ (cs : Int) := by exact_mod_cast hlen
    by_cases hco : ((0 : Int) + cs) - co ≤ ((0 : Int) + cs) - cs
    · rw [if_pos hco]
      omega
    · rw [if_neg hco]
      have hcolt : co < cs := by omega
      have hexit' := hexit hcolt
      omega
  unfold splitTextCharacters
  rw [splitCharsAux_succ, if_pos (show (0 : Int) < (text.length : Int) by exact_mod_cast hlen0),
    hci, splitCharsAux_succ, if_neg hS]
  rfl

/-- C5 counterexample: with the configuration defaults
(`min_chunk_size = 50`, `respect_sentence_boundary = True`), the input
`"hi"` is shorter than `chunk_size = 10` but `_split_text_characters`
returns the EMPTY sequence, not the single trimmed chunk `["hi"]`: the
trimmed chunk is discarded for being shorter than `min_chunk_size`. -/
theorem split_short_input_not_single_trimmed_chunk :
    splitTextCharacters true 50 10 2 100 "hi".toList ≠ some [pyStrip "hi".toList]
    ∧ splitTextCharacters true 50 10 2 100 "hi".toList = some [] := by decide

/-- C5 (amended): (a) character mode maps empty input to the empty
sequence, and a whitespace-only input to the empty sequence whenever the
loop terminates; (b) token mode maps blank input to the empty sequence,
and an input of at most `chunk_size` tokens with non-blank content to the
single chunk equal to the UNTRIMMED input text; (c) character mode maps an
input no longer than `chunk_size` to the single trimmed chunk provided the
first window is also the last (`len ≤ chunk_size − chunk_overlap`, or
`chunk_overlap ≥ chunk_size`) and the trimmed text reaches
`min_chunk_size` — a shorter trimmed text is discarded
(the counterexample), and a larger overlap re-enters the text. -/
theorem split_edge_cases_amended :
    (∀ (respect : Bool) (minCS cs co fuel : Nat),
       splitTextCharacters respect minCS cs co (fuel + 1) [] = some [])
    ∧ (∀ (respect : Bool) (minCS cs co fuel : Nat) (text : List Char)
         (l : List (List Char)), (∀ c ∈ text, isPySpace c = true) →
         splitTextCharacters respect minCS cs co fuel text = some l → l = [])
    ∧ (∀ (encode : List Char → List Nat) (decode : List Nat → List Char)
         (respect : Bool) (minCS cs co fuel : Nat) (text : List Char),
         pyStrip text = [] →
         splitTextTokens encode decode respect minCS cs co fuel text = some [])
    ∧ (∀ (encode : List Char → List Nat) (decode : List Nat → List Char)
         (respect : Bool) (minCS cs co fuel : Nat) (text : List Char),
         pyStrip text ≠ [] → (encode text).length ≤ cs →
         splitTextTokens encode decode respect minCS cs co fuel text = some [text])
    ∧ ∀ (respect : Bool) (minCS cs co fuel : Nat) (text : List Char),
        text.length ≤ cs → (co < cs → text.length ≤ cs - co) →
        pyStrip text ≠ [] → minCS ≤ (pyStrip text).length →
        splitTextCharacters respect minCS cs co (fuel + 2) text = some [pyStrip text] := by
  refine ⟨?_, ?_, ?_, ?_, ?_⟩
  · intro respect minCS cs co fuel
    rfl
  · intro respect minCS cs co fuel text l hws h
    exact splitChars_ws_acc respect minCS cs co text hws fuel 0 [] l h
  · intro encode decode respect minCS cs co fuel text h
    unfold splitTextTokens
    rw [if_pos h]
  · intro encode decode respect minCS cs co fuel text h1 h2
    unfold splitTextTokens
    rw [if_neg h1]
    dsimp only
    rw [if_pos h2, if_pos h1]
  · intro respect minCS cs co fuel text h1 h2 h3 h4
    exact splitChars_short respect minCS cs co fuel text h1 h2 h3 h4

/-- The amended C5 statement's character-mode short-input clause applied
at a concrete input: `" hello "` with `chunk_size = 10`,
`chunk_overlap = 3`, `min_chunk_size = 2` yields the single trimmed chunk
`["hello"]`. -/
theorem split_edge_cases_amended_witness :
    splitTextCharacters true 2 10 3 (98 + 2) " hello ".toList
      = some [pyStrip " hello ".toList] :=
  split_edge_cases_amended.2.2.2.2 true 2 10 3 98 " hello ".toList
    (by decide) (by decide) (by decide) (by decide)

end VLDocling
